import Mathlib

/-!
Verification of the query-matching and ranking engine of rofi
(src/source/helper.c): tokenization and pattern compilation
(glob_to_regex, fuzzy_to_regex, create_regex, tokenize), the token
matcher (helper_token_match), match-span extraction for highlighting
(helper_token_match_get_pango_attr), the fzf-like fuzzy scorer
(rofi_scorer_fuzzy_evaluate) and the Levenshtein edit distance
(levenshtein).

Strings are embedded as `List Char` (one entry per Unicode codepoint,
mirroring the g_utf8 iteration of the C code).  The GLib regex engine
(GRegex / PCRE) is an external dependency of the repository; it is
modelled from the spec where needed (see the doc comments starting
with "Modelled from the spec").  Machine integers of the scorer are
embedded as `Int` (the C values provably stay far away from the int
bounds for inputs the scorer accepts); the unsigned counters of the
edit distance are embedded as `Nat`.
-/

namespace Rofi

/-- Case comparison used by GRegex with `G_REGEX_CASELESS` and by the C
helpers that call `g_unichar_tolower` on both sides; `ci = true` means
case-insensitive.  `Char.toLower` models `g_unichar_tolower` (they agree
on ASCII, which is all the concrete inputs of the claims use). -/
def ceq (ci : Bool) (a b : Char) : Bool :=
  if ci then a.toLower == b.toLower else a == b

/-- Modelled from the spec: the set of pattern metacharacters escaped by
GLib's `g_regex_escape_string` ("escape all pattern-metacharacters"). -/
def isRegexMeta (c : Char) : Bool :=
  c = '\\' || c = '|' || c = '(' || c = ')' || c = '[' || c = ']' ||
  c = '{' || c = '}' || c = '^' || c = '$' || c = '*' || c = '+' ||
  c = '?' || c = '.'

/-- Modelled from the spec: GLib's `g_regex_escape_string`, which
prefixes every pattern metacharacter with a backslash. -/
def g_regex_escape_string (s : List Char) : List Char :=
  s.flatMap (fun c => if isRegexMeta c then ['\\', c] else [c])

/-- `glob_to_regex`: the in-place rewrite of the escaped string from the
source.  On seeing a backslash, an escaped `*` has its backslash turned
into `.` (giving the regex `.*`) and an escaped `?` has the `?` turned
into `S` (giving the regex `\S`); the character after a backslash is
skipped so wildcard substitution is not reapplied. -/
def glob_rewrite : List Char → List Char
  | [] => []
  | c :: rest =>
    if c = '\\' then
      match rest with
      | [] => ['\\']
      | d :: rest' =>
        if d = '*' then '.' :: '*' :: glob_rewrite rest'
        else if d = '?' then '\\' :: 'S' :: glob_rewrite rest'
        else '\\' :: d :: glob_rewrite rest'
    else c :: glob_rewrite rest

/-- `glob_to_regex` from the source: escape, then rewrite wildcards. -/
def glob_to_regex (input : List Char) : List Char :=
  glob_rewrite (g_regex_escape_string input)

/-- `fuzzy_to_regex` body: walk the escaped token text; every codepoint
becomes a one-character capture group, groups are joined by `.*`; a
backslash escape is copied into its group (a dangling backslash ends
the scan, as the C `break` does). -/
def fuzzy_build (first : Bool) : List Char → List Char
  | [] => []
  | c :: rest =>
    (if first then ['('] else ['.', '*', '(']) ++
      (if c = '\\' then
        '\\' ::
          (match rest with
           | [] => []
           | d :: rest' => d :: ')' :: fuzzy_build false rest')
      else c :: ')' :: fuzzy_build false rest)

/-- `fuzzy_to_regex` from the source. -/
def fuzzy_to_regex (input : List Char) : List Char :=
  fuzzy_build true (g_regex_escape_string input)

/-- Modelled from the spec: abstract syntax of the regular expressions
the engine is asked to compile.  The compiled pipelines only emit
literals, `.`, `\S`, `.*` and one-character capture groups; the model
additionally parses user-written groups and postfix `*`. -/
inductive RAtom where
  | lit (c : Char)
  | anyOne
  | nonSpace
  | star (a : RAtom)
  | group (g : List RAtom)

/-- A compiled regex body: a sequence of atoms. -/
abbrev RExp := List RAtom

/-- Modelled from the spec: the compilation front end of the regex
engine (`g_regex_new`).  A single pass with an explicit stack of open
groups; malformed input (unbalanced parentheses, dangling backslash,
a quantifier with nothing to apply to, or constructs outside the
modelled fragment) yields `none`, as `g_regex_new` yields NULL. -/
def parseLoop : List Char → RExp → List RExp → Option RExp
  | [], cur, st => if st.isEmpty then some cur.reverse else none
  | c :: rest, cur, st =>
    if c = '\\' then
      match rest with
      | [] => none
      | d :: rest' =>
        parseLoop rest' ((if d = 'S' then RAtom.nonSpace else RAtom.lit d) :: cur) st
    else if c = '(' then parseLoop rest [] (cur :: st)
    else if c = ')' then
      match st with
      | [] => none
      | outer :: st' => parseLoop rest (RAtom.group cur.reverse :: outer) st'
    else if c = '.' then parseLoop rest (RAtom.anyOne :: cur) st
    else if c = '*' then
      match cur with
      | [] => none
      | a :: cur' => parseLoop rest (RAtom.star a :: cur') st
    else if c = '|' ∨ c = '[' ∨ c = '{' ∨ c = '^' ∨ c = '$' ∨ c = '+' ∨ c = '?'
    then none
    else parseLoop rest (RAtom.lit c :: cur) st

/-- Modelled from the spec: compile a regex source string to its
abstract syntax, or fail. -/
def parseRE (s : List Char) : Option RExp :=
  parseLoop s [] []

/-- A compiled `GRegex`: the parsed body plus the caselessness flag
fixed at compile time (`G_REGEX_CASELESS` is set iff the configuration
is not case sensitive). -/
structure GRegexM where
  ci : Bool
  re : RExp

/-- The `R` macro of the source: compile `s` with `G_REGEX_OPTIMIZE`
and, unless case sensitive, `G_REGEX_CASELESS`. -/
def R (s : List Char) (case_sensitive : Bool) : Option GRegexM :=
  (parseRE s).map (fun re => ⟨!case_sensitive, re⟩)

/-- The matching-method enum of the source (config.matching_method). -/
inductive MatchingMethod where
  | MM_NORMAL
  | MM_REGEX
  | MM_GLOB
  | MM_FUZZY
deriving DecidableEq

/-- `create_regex` from the source: build the regex text for the
configured matching method and compile it; in `MM_REGEX` mode a failed
compilation falls back to compiling the escaped (literal) text. -/
def create_regex (mm : MatchingMethod) (input : List Char)
    (case_sensitive : Bool) : Option GRegexM :=
  match mm with
  | .MM_GLOB => R (glob_to_regex input) case_sensitive
  | .MM_REGEX =>
    (match R input case_sensitive with
     | some retv => some retv
     | none => R (g_regex_escape_string input) case_sensitive)
  | .MM_FUZZY => R (fuzzy_to_regex input) case_sensitive
  | .MM_NORMAL => R (g_regex_escape_string input) case_sensitive

/-- `tokenize` from the source.  Empty input yields the NULL token set;
with tokenization disabled the whole input is one token; otherwise the
input is split on ASCII space (strtok_r with " ", which produces the
non-empty fields).  A NULL entry stands for a failed `create_regex`
(the consumers stop at the first NULL, hence the `Option`). -/
def tokenize (mm : MatchingMethod) (tokenizeEnabled : Bool)
    (case_sensitive : Bool) (input : List Char) : List (Option GRegexM) :=
  if input = [] then []
  else if !tokenizeEnabled then [create_regex mm input case_sensitive]
  else ((input.splitOn ' ').filter (fun t => t ≠ [])).map
    (fun t => create_regex mm t case_sensitive)

mutual
/-- Size measure on regex atoms, used for termination of the matcher. -/
def atomM : RAtom → Nat
  | .lit _ => 1
  | .anyOne => 1
  | .nonSpace => 1
  | .star a => atomM a + 1
  | .group g => reMeasure g + 1
/-- Size measure on regex bodies, used for termination of the matcher. -/
def reMeasure : RExp → Nat
  | [] => 0
  | a :: as => atomM a + reMeasure as
end

/-- Modelled from the spec: whether a single-character atom matches one
codepoint.  Only single-character atoms can be starred in the model. -/
def matchesChar (ci : Bool) : RAtom → Char → Bool
  | .lit c, d => ceq ci c d
  | .anyOne, _ => true
  | .nonSpace, d => !d.isWhitespace
  | .star _, _ => false
  | .group _, _ => false

/-- Modelled from the spec: the regex body matches some prefix of `s`
(the end of the match is free).  Groups are transparent for acceptance;
`.*` stands for "any sequence" as the spec describes it. -/
def acceptPref (ci : Bool) : RExp → List Char → Bool
  | [], _ => true
  | .group g :: as, s => acceptPref ci (g ++ as) s
  | .star a :: as, s =>
    acceptPref ci as s ||
      (match s with
       | [] => false
       | d :: s' => matchesChar ci a d && acceptPref ci (.star a :: as) s')
  | .lit c :: as, s =>
    (match s with
     | [] => false
     | d :: s' => ceq ci c d && acceptPref ci as s')
  | .anyOne :: as, s =>
    (match s with
     | [] => false
     | _ :: s' => acceptPref ci as s')
  | .nonSpace :: as, s =>
    (match s with
     | [] => false
     | d :: s' => !d.isWhitespace && acceptPref ci as s')
termination_by re s => (s.length, reMeasure re)
decreasing_by
  all_goals simp_wf
  all_goals
    first
      | (apply Prod.Lex.left; omega)
      | (apply Prod.Lex.right
         have h : ∀ (x y : RExp), reMeasure (x ++ y) = reMeasure x + reMeasure y := by
           intro x y
           induction x with
           | nil => simp [reMeasure]
           | cons a as ih =>
             show reMeasure (a :: (as ++ y)) = reMeasure (a :: as) + reMeasure y
             rw [show reMeasure (a :: (as ++ y)) = atomM a + reMeasure (as ++ y) from rfl,
                 show reMeasure (a :: as) = atomM a + reMeasure as from rfl, ih]
             omega
         try rw [h]
         simp [reMeasure, atomM]
         try omega)

/-- Modelled from the spec: unanchored search, as `g_regex_match`
performs it — the body may match starting at any position. -/
def re_search (ci : Bool) (re : RExp) : List Char → Bool
  | [] => acceptPref ci re []
  | d :: s' => acceptPref ci re (d :: s') || re_search ci re s'

/-- Boolean `g_regex_match` (no match info requested). -/
def g_regex_match (r : GRegexM) (input : List Char) : Bool :=
  re_search r.ci r.re input

/-- `helper_token_match` from the source: AND over the tokens with
short circuit; a NULL pointer (or a NULL entry, which terminates the
scan of the NULL-terminated array) leaves the initial TRUE. -/
def helper_token_match : List (Option GRegexM) → List Char → Bool
  | [], _ => true
  | none :: _, _ => true
  | some t :: ts, input => g_regex_match t input && helper_token_match ts input

/-- Compile a query under the given matching method (case-sensitive
configuration) and match one candidate; a compile failure matches
nothing.  Convenience composition of the source functions for stating
the spec's examples. -/
def compileAndMatch (mm : MatchingMethod) (q cand : List Char) : Bool :=
  match create_regex mm q true with
  | some r => g_regex_match r cand
  | none => false

/-! ## Match info with capture groups (for the highlighter) -/

/-- Capture-group spans, in codepoint offsets, in group-number order. -/
abbrev Caps := List (Nat × Nat)

/-- Modelled from the spec: backtracking matcher of the regex engine in
PCRE priority order (leftmost, greedy `*`), reporting the end position
and the capture-group spans of each alternative; the head of the list
is the match `g_match_info` reports.  `fuel` bounds the recursion; the
callers pass more than any match of the given input can consume. -/
def bmatch (ci : Bool) : Nat → RExp → List Char → Nat → List (Nat × Caps)
  | 0, _, _, _ => []
  | _ + 1, [], _, pos => [(pos, [])]
  | fuel + 1, .lit c :: as, s, pos =>
    (match s with
     | d :: s' => if ceq ci c d then bmatch ci fuel as s' (pos + 1) else []
     | [] => [])
  | fuel + 1, .anyOne :: as, s, pos =>
    (match s with
     | _ :: s' => bmatch ci fuel as s' (pos + 1)
     | [] => [])
  | fuel + 1, .nonSpace :: as, s, pos =>
    (match s with
     | d :: s' => if !d.isWhitespace then bmatch ci fuel as s' (pos + 1) else []
     | [] => [])
  | fuel + 1, .group g :: as, s, pos =>
    (bmatch ci fuel g s pos).flatMap
      (fun ec =>
        (bmatch ci fuel as (s.drop (ec.1 - pos)) ec.1).map
          (fun ec2 => (ec2.1, (pos, ec.1) :: ec.2 ++ ec2.2)))
  | fuel + 1, .star a :: as, s, pos =>
    (match s with
     | d :: s' =>
       if matchesChar ci a d then bmatch ci fuel (.star a :: as) s' (pos + 1) else []
     | [] => []) ++ bmatch ci fuel as s pos

/-- Fuel sufficient for `bmatch` on the given body and input. -/
def bmatchFuel (re : RExp) (s : List Char) : Nat :=
  (s.length + 1) * (reMeasure re + 2) + 1

/-- Modelled from the spec: find the first (leftmost) occurrence at or
after absolute position `pos` (`s` is the input suffix at `pos`);
returns (start, end, capture spans). -/
def bsearchFrom (ci : Bool) (re : RExp) : List Char → Nat → Option (Nat × Nat × Caps)
  | s, pos =>
    match bmatch ci (bmatchFuel re s) re s pos with
    | r :: _ => some (pos, r.1, r.2)
    | [] =>
      match s with
      | [] => none
      | _ :: s' => bsearchFrom ci re s' (pos + 1)

/-- Modelled from the spec: iterate all sequential occurrences the way
the `g_match_info_matches` / `g_match_info_next` loop does — the next
scan resumes at the end of the previous match (one past it when the
match was empty). -/
def boccAux (ci : Bool) (re : RExp) : Nat → List Char → Nat → List (Nat × Nat × Caps)
  | 0, _, _ => []
  | fuel + 1, s, pos =>
    match bsearchFrom ci re s pos with
    | none => []
    | some (st, en, caps) =>
      (st, en, caps) ::
        (let nxt := if en = st then st + 1 else en
         boccAux ci re fuel (s.drop (nxt - pos)) nxt)

/-- All occurrences of a compiled pattern in the input. -/
def boccurrences (ci : Bool) (re : RExp) (s : List Char) : List (Nat × Nat × Caps) :=
  boccAux ci re (s.length + 1) s 0

/-! ## Highlighter (helper_token_match_get_pango_attr) -/

/-- The highlight style flags of ThemeHighlight (`th.style`); the RGB
triple of the `HL_COLOR` case is configuration passed through untouched
and is not modelled. -/
structure ThemeHighlight where
  bold : Bool
  underline : Bool
  italic : Bool
  color : Bool
deriving DecidableEq

/-- The kinds of Pango attribute the source inserts. -/
inductive PangoAttrKind where
  | weightBold
  | underlineSingle
  | styleItalic
  | foreground
deriving DecidableEq

/-- One inserted Pango attribute: kind plus span (codepoint offsets in
the model; the C code records byte offsets, which agree on ASCII). -/
structure PangoAttr where
  kind : PangoAttrKind
  start_index : Nat
  end_index : Nat
deriving DecidableEq

/-- The attributes the inner loop of the source inserts for one span,
in source order (bold, underline, italic, color). -/
def attrsForSpan (th : ThemeHighlight) (s e : Nat) : List PangoAttr :=
  (if th.bold then [⟨.weightBold, s, e⟩] else []) ++
  (if th.underline then [⟨.underlineSingle, s, e⟩] else []) ++
  (if th.italic then [⟨.styleItalic, s, e⟩] else []) ++
  (if th.color then [⟨.foreground, s, e⟩] else [])

/-- The span-selection loop of the source: `g_match_info_get_match_count`
is one more than the number of capture groups; the loop starts at index
1 when the count exceeds 1 (reporting each group's span, excluding the
whole match), else at index 0 (reporting the whole-match span). -/
def spansOfOccurrence (occ : Nat × Nat × Caps) : List (Nat × Nat) :=
  let count := occ.2.2.length + 1
  if count > 1 then occ.2.2 else [(occ.1, occ.2.1)]

/-- `helper_token_match_get_pango_attr` from the source: for every token
(stopping at a NULL entry), iterate all match occurrences and insert the
style attributes for each selected span. -/
def helper_token_match_get_pango_attr (th : ThemeHighlight) :
    List (Option GRegexM) → List Char → List PangoAttr
  | [], _ => []
  | none :: _, _ => []
  | some t :: ts, input =>
    (boccurrences t.ci t.re input).flatMap
      (fun occ => (spansOfOccurrence occ).flatMap (fun se => attrsForSpan th se.1 se.2)) ++
      helper_token_match_get_pango_attr th ts input

/-! ## The fzf-like fuzzy scorer (rofi_scorer_fuzzy_evaluate) -/

/-- Max length of input to score. -/
def FUZZY_SCORER_MAX_LENGTH : Nat := 256

/-- The C `INT_MIN` (two's complement 32-bit). -/
def INT_MIN : Int := -2147483648

/-- Minimum score: `INT_MIN / 2` (exact division, no rounding). -/
def MIN_SCORE : Int := INT_MIN / 2

/-- Leading gap score. -/
def LEADING_GAP_SCORE : Int := -4

/-- Gap score. -/
def GAP_SCORE : Int := -5

/-- Start-of-word score. -/
def WORD_START_SCORE : Int := 50

/-- Non-word score. -/
def NON_WORD_SCORE : Int := 40

/-- CamelCase score: `WORD_START_SCORE + GAP_SCORE - 1`. -/
def CAMEL_SCORE : Int := WORD_START_SCORE + GAP_SCORE - 1

/-- Consecutive score: `WORD_START_SCORE + GAP_SCORE`. -/
def CONSECUTIVE_SCORE : Int := WORD_START_SCORE + GAP_SCORE

/-- Non-start multiplier. -/
def PATTERN_NON_START_MULTIPLIER : Int := 1

/-- Start multiplier. -/
def PATTERN_START_MULTIPLIER : Int := 2

/-- The character classes of the scorer. -/
inductive CharClass where
  | LOWER
  | UPPER
  | DIGIT
  | NON_WORD
deriving DecidableEq

/-- `rofi_scorer_get_character_class` from the source; `Char.isLower`
etc. model `g_unichar_islower` etc. (they agree on ASCII). -/
def rofi_scorer_get_character_class (c : Char) : CharClass :=
  if c.isLower then .LOWER
  else if c.isUpper then .UPPER
  else if c.isDigit then .DIGIT
  else .NON_WORD

/-- `rofi_scorer_get_score_for` from the source: the per-transition
base bonus. -/
def rofi_scorer_get_score_for (prev curr : CharClass) : Int :=
  if prev = .NON_WORD ∧ curr ≠ .NON_WORD then WORD_START_SCORE
  else if (prev = .LOWER ∧ curr = .UPPER) ∨ (prev ≠ .DIGIT ∧ curr = .DIGIT) then CAMEL_SCORE
  else if curr = .NON_WORD then NON_WORD_SCORE
  else 0

/-- The per-position base-bonus array `score[]` of the scorer, built
left to right carrying the previous character class. -/
def bonusScores (prev : CharClass) : List Char → List Int
  | [] => []
  | c :: cs =>
    rofi_scorer_get_score_for prev (rofi_scorer_get_character_class c) ::
      bonusScores (rofi_scorer_get_character_class c) cs

/-- One inner (candidate) loop of the scorer for pattern character `pc`:
walks the candidate, the bonus array and the previous DP row in step,
carrying `si`, `lefts`, `uleft`, `ulefts` exactly as the C loop does;
returns the new DP row together with the final `uleft`/`ulefts`. -/
def scorerRow (case_sensitive pfirst : Bool) (mult : Int) (pc : Char) :
    List Char → List Int → List Int → Int → Int → Int → Int →
    (List Int × Int × Int)
  | c :: str', sc :: scs, d :: ds, si, lefts, uleft, ulefts =>
    let left := d
    let lefts' := max (lefts + GAP_SCORE) left
    let dpv :=
      if ceq (!case_sensitive) pc c then
        (if pfirst then LEADING_GAP_SCORE * si + sc * mult
         else max (uleft + CONSECUTIVE_SCORE) (ulefts + sc * mult))
      else MIN_SCORE
    let r := scorerRow case_sensitive pfirst mult pc str' scs ds (si + 1) lefts' left lefts'
    (dpv :: r.1, r.2)
  | _, _, _, _, _, uleft, ulefts => ([], uleft, ulefts)

/-- The outer (pattern) loop of the scorer: spaces in the pattern only
re-arm the word-start flag; other characters run one DP row. -/
def scorerLoop (case_sensitive : Bool) (scs : List Int) (str : List Char) :
    List Char → List Int → Int → Int → Bool → Bool → List Int
  | [], dp, _, _, _, _ => dp
  | pc :: ps, dp, uleft, ulefts, pfirst, pstart =>
    if pc.isWhitespace then
      scorerLoop case_sensitive scs str ps dp uleft ulefts pfirst true
    else
      let mult := if pstart then PATTERN_START_MULTIPLIER else PATTERN_NON_START_MULTIPLIER
      let r := scorerRow case_sensitive pfirst mult pc str scs dp 0 MIN_SCORE uleft ulefts
      scorerLoop case_sensitive scs str ps r.1 r.2.1 r.2.2 false false

/-- The final scan of the scorer: best value reachable through a
trailing gap. -/
def finalGapScan : List Int → Int → Int
  | [], lefts => lefts
  | d :: ds, lefts => finalGapScan ds (max (lefts + GAP_SCORE) d)

/-- `rofi_scorer_fuzzy_evaluate` from the source.  Candidates longer
than `FUZZY_SCORER_MAX_LENGTH` short-circuit to `-MIN_SCORE`; otherwise
the single-row DP runs and the negated best value is returned (smaller
result = better match). -/
def rofi_scorer_fuzzy_evaluate (case_sensitive : Bool) (pattern str : List Char) : Int :=
  if str.length > FUZZY_SCORER_MAX_LENGTH then -MIN_SCORE
  else
    let score := bonusScores .NON_WORD str
    let dp0 := List.replicate str.length MIN_SCORE
    let dp := scorerLoop case_sensitive score str pattern dp0 0 0 true true
    Neg.neg (finalGapScan dp MIN_SCORE)

/-! ## Levenshtein edit distance (levenshtein) -/

/-- `G_MAXLONG` (64-bit). -/
def G_MAXLONG : Nat := 9223372036854775807

/-- `UINT_MAX` (32-bit). -/
def UINT_MAX : Nat := 4294967295

/-- The inner loop of `levenshtein` for haystack character `hc`: walks
the needle and the old column tail carrying the freshly written cell
(`newPrev` = new `column[y-1]`) and `lastdiag` (old `column[y-1]`);
`MIN3(a,b,c) = min (min a b) c`. -/
def levStepGo (eq : Char → Char → Bool) (hc : Char) :
    List Char → List Nat → Nat → Nat → List Nat
  | [], _, _, _ => []
  | _ :: _, [], _, _ => []
  | n :: ns, oldv :: olds, newPrev, lastdiag =>
    let v := min (min (oldv + 1) (newPrev + 1)) (lastdiag + if eq n hc then 0 else 1)
    v :: levStepGo eq hc ns olds v oldv

/-- The outer loop of `levenshtein`: one column update per haystack
character (`x` counts processed haystack characters; the new
`column[0]` is `x + 1`), then the answer is `column[needlelen]`. -/
def levRun (eq : Char → Char → Bool) (needle : List Char) :
    List Char → List Nat → Nat → Nat
  | [], col, _ => col.getLastD 0
  | hc :: hs, col, x =>
    let col' :=
      match col with
      | [] => []
      | c0 :: rest => (x + 1) :: levStepGo eq hc needle rest (x + 1) c0
    levRun eq needle hs col' (x + 1)

/-- `levenshtein` from the source: single-column DP over codepoints,
case-folding both sides unless case sensitive; a needle of length
`G_MAXLONG` returns the `UINT_MAX` sentinel. -/
def levenshtein (case_sensitive : Bool) (needle haystack : List Char) : Nat :=
  if needle.length = G_MAXLONG then UINT_MAX
  else levRun (ceq !case_sensitive) needle haystack (List.range (needle.length + 1)) 0

/-! ## Characterizations used by the theorems -/

/-- The abstract syntax the Literal pipeline produces: one literal atom
per input codepoint. -/
def litAst (p : List Char) : RExp :=
  p.map RAtom.lit

/-- The abstract syntax the Glob pipeline produces: `*` becomes
"any sequence" (star of any-codepoint), `?` becomes the single
non-whitespace-codepoint atom `\S`, everything else is a literal. -/
def globAst (p : List Char) : RExp :=
  p.map (fun c =>
    if c = '*' then RAtom.star .anyOne
    else if c = '?' then RAtom.nonSpace
    else RAtom.lit c)

/-- The abstract syntax the Fuzzy pipeline produces after the first
codepoint: `.*` then a one-character group, repeatedly. -/
def fuzzyRest : List Char → RExp
  | [] => []
  | c :: cs => RAtom.star .anyOne :: RAtom.group [RAtom.lit c] :: fuzzyRest cs

/-- The abstract syntax the Fuzzy pipeline produces: one-character
capture groups joined by `.*`. -/
def fuzzyAst : List Char → RExp
  | [] => []
  | c :: cs => RAtom.group [RAtom.lit c] :: fuzzyRest cs

/-- Modelled from the spec: the claimed transition table of the fuzzy
scorer, read as the ordered case distinction the claim lists, with the
CAMEL entry at the value of the claim's own formula
`WORD_START + GAP - 1` (which is 44, not the 45 the claim also
states). -/
def specTransitionScore (prev curr : CharClass) : Int :=
  if prev = .NON_WORD ∧ curr ≠ .NON_WORD then 50
  else if (prev = .LOWER ∧ curr = .UPPER) ∨ (prev ≠ .DIGIT ∧ curr = .DIGIT) then 44
  else if curr = .NON_WORD then 40
  else 0

/-- Reference recursive Levenshtein distance with unit costs over the
character equivalence `eq`; the DP of `levenshtein` is proved equal to
it (on the reversed strings). -/
def editDistRec (eq : Char → Char → Bool) : List Char → List Char → Nat
  | [], ys => ys.length
  | x :: xs, [] => (x :: xs).length
  | x :: xs, y :: ys =>
    min (min (editDistRec eq (x :: xs) ys + 1) (editDistRec eq xs (y :: ys) + 1))
      (editDistRec eq xs ys + if eq x y then 0 else 1)
termination_by xs ys => (xs.length, ys.length)

/-- The reference value of the DP column tail over processed haystack
prefix `P` (stored reversed): entry `i` is the distance between the
reversal of the first `i + 1` unprocessed needle characters prepended
to `r` and `P`. -/
def distRows (eq : Char → Char → Bool) (P : List Char) : List Char → List Char → List Nat
  | _, [] => []
  | r, m :: ms => editDistRec eq (m :: r) P :: distRows eq P (m :: r) ms

/-! ## Parsing lemmas -/

/-- Reading the end of input with no open group returns the
accumulated atoms. -/
theorem parseLoop_nil (cur : RExp) : parseLoop [] cur [] = some cur.reverse := rfl

/-- A character outside the metacharacter set differs from every
character inside it. -/
theorem ne_of_not_meta {c : Char} (h : isRegexMeta c = false) :
    ∀ d : Char, isRegexMeta d = true → c ≠ d := by
  intro d hd hcd
  subst hcd
  rw [hd] at h
  cases h

/-- Definitional unfolding of `parseLoop` on a cons cell. -/
theorem parseLoop_cons (c : Char) (rest : List Char) (cur : RExp) (st : List RExp) :
    parseLoop (c :: rest) cur st =
      (if c = '\\' then
        match rest with
        | [] => none
        | d :: rest' =>
          parseLoop rest' ((if d = 'S' then RAtom.nonSpace else RAtom.lit d) :: cur) st
      else if c = '(' then parseLoop rest [] (cur :: st)
      else if c = ')' then
        match st with
        | [] => none
        | outer :: st' => parseLoop rest (RAtom.group cur.reverse :: outer) st'
      else if c = '.' then parseLoop rest (RAtom.anyOne :: cur) st
      else if c = '*' then
        match cur with
        | [] => none
        | a :: cur' => parseLoop rest (RAtom.star a :: cur') st
      else if c = '|' ∨ c = '[' ∨ c = '{' ∨ c = '^' ∨ c = '$' ∨ c = '+' ∨ c = '?'
      then none
      else parseLoop rest (RAtom.lit c :: cur) st) := by rw [parseLoop.eq_def]

/-- Escaped metacharacters parse to their literal atom. -/
theorem parseLoop_escaped_meta {c : Char} (h : isRegexMeta c = true)
    (rest : List Char) (cur : RExp) (st : List RExp) :
    parseLoop ('\\' :: c :: rest) cur st = parseLoop rest (.lit c :: cur) st := by
  have hS : c ≠ 'S' := by
    rintro rfl
    exact absurd h (by decide)
  rw [parseLoop_cons]
  simp [hS]

/-- Ordinary characters parse to their literal atom. -/
theorem parseLoop_plain {c : Char} (h : isRegexMeta c = false)
    (rest : List Char) (cur : RExp) (st : List RExp) :
    parseLoop (c :: rest) cur st = parseLoop rest (.lit c :: cur) st := by
  have k := ne_of_not_meta h
  rw [parseLoop_cons]
  simp [k '\\' (by decide), k '(' (by decide), k ')' (by decide),
    k '.' (by decide), k '*' (by decide), k '|' (by decide), k '[' (by decide),
    k '{' (by decide), k '^' (by decide), k '$' (by decide), k '+' (by decide),
    k '?' (by decide)]

/-- One escaped codepoint of the escaped string. -/
theorem escape_cons (c : Char) (s : List Char) :
    g_regex_escape_string (c :: s) =
      (if isRegexMeta c then ['\\', c] else [c]) ++ g_regex_escape_string s := by
  simp [g_regex_escape_string]

/-- Consuming an escaped string adds one literal atom per original
codepoint to the accumulator. -/
theorem parseLoop_escape (s : List Char) :
    ∀ (rest : List Char) (cur : RExp) (st : List RExp),
      parseLoop (g_regex_escape_string s ++ rest) cur st =
        parseLoop rest ((litAst s).reverse ++ cur) st := by
  induction s with
  | nil => intro rest cur st; simp [g_regex_escape_string, litAst]
  | cons c s' ih =>
    intro rest cur st
    rw [escape_cons]
    by_cases hm : isRegexMeta c
    · rw [if_pos hm]
      rw [List.append_assoc, List.cons_append, List.cons_append, List.nil_append]
      rw [parseLoop_escaped_meta hm, ih]
      simp [litAst, List.append_assoc]
    · rw [if_neg hm]
      rw [List.append_assoc, List.cons_append, List.nil_append]
      rw [parseLoop_plain (by simpa using hm), ih]
      simp [litAst, List.append_assoc]

/-- The escaped (Literal-strategy) text of any token always compiles,
to one literal atom per codepoint. -/
theorem parseRE_escape (s : List Char) :
    parseRE (g_regex_escape_string s) = some (litAst s) := by
  have h := parseLoop_escape s [] [] []
  rw [List.append_nil] at h
  rw [parseRE, h, parseLoop_nil]
  simp

/-- Definitional unfolding of `glob_rewrite` on a cons cell. -/
theorem glob_rewrite_cons (c : Char) (rest : List Char) :
    glob_rewrite (c :: rest) =
      (if c = '\\' then
        match rest with
        | [] => ['\\']
        | d :: rest' =>
          if d = '*' then '.' :: '*' :: glob_rewrite rest'
          else if d = '?' then '\\' :: 'S' :: glob_rewrite rest'
          else '\\' :: d :: glob_rewrite rest'
      else c :: glob_rewrite rest) := by
  rw [glob_rewrite.eq_def]

/-- One codepoint of the glob pipeline's regex text: `*` contributes
`.*`, `?` contributes `\S`, other metacharacters stay escaped, plain
characters stay plain. -/
theorem glob_chunk (c : Char) (s : List Char) :
    glob_rewrite (g_regex_escape_string (c :: s)) =
      (if c = '*' then ['.', '*']
       else if c = '?' then ['\\', 'S']
       else if isRegexMeta c then ['\\', c]
       else [c]) ++ glob_rewrite (g_regex_escape_string s) := by
  rw [escape_cons]
  by_cases hm : isRegexMeta c
  · rw [if_pos hm, List.cons_append, List.cons_append, List.nil_append, glob_rewrite_cons]
    by_cases h1 : c = '*'
    · subst h1; simp
    · by_cases h2 : c = '?'
      · subst h2; simp
      · simp [h1, h2, hm]
  · have h1 : c ≠ '*' := ne_of_not_meta (by simpa using hm) '*' (by decide)
    have h2 : c ≠ '?' := ne_of_not_meta (by simpa using hm) '?' (by decide)
    have hb : c ≠ '\\' := ne_of_not_meta (by simpa using hm) '\\' (by decide)
    rw [if_neg hm, List.singleton_append, glob_rewrite_cons, if_neg hb]
    simp [h1, h2, hm]

/-- Parsing `.*` pushes a star-of-any atom. -/
theorem parseLoop_dotstar (rest : List Char) (cur : RExp) (st : List RExp) :
    parseLoop ('.' :: '*' :: rest) cur st = parseLoop rest (.star .anyOne :: cur) st := by
  rw [parseLoop_cons, if_neg (by decide), if_neg (by decide), if_neg (by decide),
    if_pos (by decide)]
  rw [parseLoop_cons, if_neg (by decide), if_neg (by decide), if_neg (by decide),
    if_neg (by decide), if_pos (by decide)]

/-- Parsing `\S` pushes the non-whitespace atom. -/
theorem parseLoop_backS (rest : List Char) (cur : RExp) (st : List RExp) :
    parseLoop ('\\' :: 'S' :: rest) cur st = parseLoop rest (.nonSpace :: cur) st := by
  rw [parseLoop_cons, if_pos (by decide)]
  simp

/-- Parsing a one-character group of an escaped metacharacter. -/
theorem parseLoop_group_meta {c : Char} (hm : isRegexMeta c = true)
    (rest : List Char) (cur : RExp) (st : List RExp) :
    parseLoop ('(' :: '\\' :: c :: ')' :: rest) cur st =
      parseLoop rest (.group [.lit c] :: cur) st := by
  rw [parseLoop_cons, if_neg (by decide), if_pos (by decide)]
  rw [parseLoop_escaped_meta hm]
  rw [parseLoop_cons, if_neg (by decide), if_neg (by decide), if_pos (by decide)]
  simp

/-- Parsing a one-character group of a plain character. -/
theorem parseLoop_group_plain {c : Char} (hm : isRegexMeta c = false)
    (rest : List Char) (cur : RExp) (st : List RExp) :
    parseLoop ('(' :: c :: ')' :: rest) cur st =
      parseLoop rest (.group [.lit c] :: cur) st := by
  rw [parseLoop_cons, if_neg (by decide), if_pos (by decide)]
  rw [parseLoop_plain hm]
  rw [parseLoop_cons, if_neg (by decide), if_neg (by decide), if_pos (by decide)]
  simp

/-- Consuming the glob pipeline's text adds one `globAst` atom per
original codepoint to the accumulator. -/
theorem parseLoop_glob (p : List Char) :
    ∀ (rest : List Char) (cur : RExp) (st : List RExp),
      parseLoop (glob_rewrite (g_regex_escape_string p) ++ rest) cur st =
        parseLoop rest ((globAst p).reverse ++ cur) st := by
  induction p with
  | nil => intro rest cur st; simp [g_regex_escape_string, glob_rewrite, globAst]
  | cons c p' ih =>
    intro rest cur st
    rw [glob_chunk, List.append_assoc]
    by_cases h1 : c = '*'
    · subst h1
      rw [if_pos rfl, List.cons_append, List.cons_append, List.nil_append]
      rw [parseLoop_dotstar, ih]
      simp [globAst, List.append_assoc]
    · by_cases h2 : c = '?'
      · subst h2
        rw [if_neg (by decide), if_pos rfl, List.cons_append, List.cons_append,
          List.nil_append]
        rw [parseLoop_backS, ih]
        simp [globAst, List.append_assoc]
      · by_cases hm : isRegexMeta c
        · rw [if_neg h1, if_neg h2, if_pos hm, List.cons_append, List.cons_append,
            List.nil_append]
          rw [parseLoop_escaped_meta hm, ih]
          simp [globAst, h1, h2, List.append_assoc]
        · rw [if_neg h1, if_neg h2, if_neg hm, List.singleton_append]
          rw [parseLoop_plain (by simpa using hm), ih]
          simp [globAst, h1, h2, List.append_assoc]

/-- The glob pipeline always compiles, to the `globAst` atoms. -/
theorem parseRE_glob (p : List Char) :
    parseRE (glob_to_regex p) = some (globAst p) := by
  have h := parseLoop_glob p [] [] []
  rw [List.append_nil] at h
  rw [parseRE, glob_to_regex, h, parseLoop_nil]
  simp

/-- Definitional unfolding of `fuzzy_build` on a cons cell. -/
theorem fuzzy_build_cons (first : Bool) (c : Char) (rest : List Char) :
    fuzzy_build first (c :: rest) =
      (if first then ['('] else ['.', '*', '(']) ++
        (if c = '\\' then
          '\\' ::
            (match rest with
             | [] => []
             | d :: rest' => d :: ')' :: fuzzy_build false rest')
        else c :: ')' :: fuzzy_build false rest) := by
  rw [fuzzy_build.eq_def]

/-- One codepoint of the fuzzy pipeline's regex text. -/
theorem fuzzy_chunk (first : Bool) (c : Char) (s : List Char) :
    fuzzy_build first (g_regex_escape_string (c :: s)) =
      (if first then ['('] else ['.', '*', '(']) ++
        (if isRegexMeta c then ['\\', c, ')'] else [c, ')']) ++
        fuzzy_build false (g_regex_escape_string s) := by
  rw [escape_cons]
  by_cases hm : isRegexMeta c
  · rw [if_pos hm, List.cons_append, List.cons_append, List.nil_append, fuzzy_build_cons,
      if_pos rfl, if_pos hm]
    simp [List.append_assoc]
  · have hb : c ≠ '\\' := ne_of_not_meta (by simpa using hm) '\\' (by decide)
    rw [if_neg hm, List.singleton_append, fuzzy_build_cons, if_neg hb, if_neg hm]
    simp [List.append_assoc]

/-- Consuming the (non-initial) fuzzy pipeline's text adds the
`fuzzyRest` atoms to the accumulator. -/
theorem parseLoop_fuzzy_rest (s : List Char) :
    ∀ (cur : RExp) (st : List RExp),
      parseLoop (fuzzy_build false (g_regex_escape_string s)) cur st =
        parseLoop [] ((fuzzyRest s).reverse ++ cur) st := by
  induction s with
  | nil => intro cur st; simp [g_regex_escape_string, fuzzy_build, fuzzyRest]
  | cons c s' ih =>
    intro cur st
    rw [fuzzy_chunk, if_neg (by decide)]
    by_cases hm : isRegexMeta c
    · rw [if_pos hm]
      rw [show (['.', '*', '('] ++ ['\\', c, ')'] ++ fuzzy_build false (g_regex_escape_string s') :
            List Char) =
          '.' :: '*' :: '(' :: '\\' :: c :: ')' :: fuzzy_build false (g_regex_escape_string s')
          from rfl]
      rw [parseLoop_dotstar, parseLoop_group_meta hm, ih]
      simp [fuzzyRest, List.append_assoc]
    · rw [if_neg hm]
      rw [show (['.', '*', '('] ++ [c, ')'] ++ fuzzy_build false (g_regex_escape_string s') :
            List Char) =
          '.' :: '*' :: '(' :: c :: ')' :: fuzzy_build false (g_regex_escape_string s')
          from rfl]
      rw [parseLoop_dotstar, parseLoop_group_plain (by simpa using hm), ih]
      simp [fuzzyRest, List.append_assoc]

/-- The fuzzy pipeline always compiles, to the `fuzzyAst` atoms. -/
theorem parseRE_fuzzy (p : List Char) :
    parseRE (fuzzy_to_regex p) = some (fuzzyAst p) := by
  cases p with
  | nil => rfl
  | cons c p' =>
    rw [parseRE, fuzzy_to_regex, fuzzy_chunk]
    by_cases hm : isRegexMeta c
    · rw [if_pos rfl, if_pos hm]
      rw [show ((['('] : List Char) ++ ['\\', c, ')'] ++
            fuzzy_build false (g_regex_escape_string p')) =
          '(' :: '\\' :: c :: ')' :: fuzzy_build false (g_regex_escape_string p') from rfl]
      rw [parseLoop_group_meta hm, parseLoop_fuzzy_rest, parseLoop_nil]
      simp [fuzzyAst]
    · rw [if_pos rfl, if_neg hm]
      rw [show ((['('] : List Char) ++ [c, ')'] ++
            fuzzy_build false (g_regex_escape_string p')) =
          '(' :: c :: ')' :: fuzzy_build false (g_regex_escape_string p') from rfl]
      rw [parseLoop_group_plain (by simpa using hm), parseLoop_fuzzy_rest, parseLoop_nil]
      simp [fuzzyAst]

/-! ## Matching lemmas -/

/-- The empty body matches the empty prefix of anything. -/
theorem acceptPref_nil (ci : Bool) (s : List Char) : acceptPref ci [] s = true := by
  simp [acceptPref]

/-- A literal atom needs input. -/
theorem acceptPref_lit_nil (ci : Bool) (c : Char) (as : RExp) :
    acceptPref ci (.lit c :: as) [] = false := by
  simp [acceptPref]

/-- A literal atom consumes one matching codepoint. -/
theorem acceptPref_lit_cons (ci : Bool) (c d : Char) (as : RExp) (s' : List Char) :
    acceptPref ci (.lit c :: as) (d :: s') = (ceq ci c d && acceptPref ci as s') := by
  simp [acceptPref]

/-- Groups are transparent for acceptance. -/
theorem acceptPref_group (ci : Bool) (g : List RAtom) (as : RExp) (s : List Char) :
    acceptPref ci (.group g :: as) s = acceptPref ci (g ++ as) s := by
  simp [acceptPref]

/-- A star on empty input can only be skipped. -/
theorem acceptPref_star_nil (ci : Bool) (a : RAtom) (as : RExp) :
    acceptPref ci (.star a :: as) [] = acceptPref ci as [] := by
  simp [acceptPref]

/-- A star either is skipped or consumes one matching codepoint and
continues. -/
theorem acceptPref_star_cons (ci : Bool) (a : RAtom) (as : RExp) (d : Char) (s' : List Char) :
    acceptPref ci (.star a :: as) (d :: s') =
      (acceptPref ci as (d :: s') || (matchesChar ci a d && acceptPref ci (.star a :: as) s')) := by
  simp [acceptPref]

/-- Unfolding of `re_search` on empty input. -/
theorem re_search_nil (ci : Bool) (re : RExp) : re_search ci re [] = acceptPref ci re [] := rfl

/-- Unfolding of `re_search` on a cons cell. -/
theorem re_search_cons (ci : Bool) (re : RExp) (d : Char) (s' : List Char) :
    re_search ci re (d :: s') = (acceptPref ci re (d :: s') || re_search ci re s') := rfl

/-- Unanchored search succeeds exactly when the body matches a prefix
of some suffix (an occurrence somewhere in the input). -/
theorem re_search_iff (ci : Bool) (re : RExp) (s : List Char) :
    re_search ci re s = true ↔ ∃ n, acceptPref ci re (s.drop n) = true := by
  induction s with
  | nil =>
    rw [re_search_nil]
    constructor
    · intro h; exact ⟨0, h⟩
    · rintro ⟨n, h⟩; simpa using h
  | cons d s' ih =>
    rw [re_search_cons, Bool.or_eq_true, ih]
    constructor
    · rintro (h | ⟨n, h⟩)
      · exact ⟨0, h⟩
      · exact ⟨n + 1, h⟩
    · rintro ⟨n, h⟩
      cases n with
      | zero => exact Or.inl h
      | succ n => exact Or.inr ⟨n, h⟩

/-- The empty body is found in every input. -/
theorem re_search_nil_re (ci : Bool) (s : List Char) : re_search ci [] s = true := by
  cases s with
  | nil => rw [re_search_nil, acceptPref_nil]
  | cons d s' => rw [re_search_cons, acceptPref_nil, Bool.true_or]

/-- A single case-sensitive literal is found iff it occurs in the
input. -/
theorem re_search_single_lit (c : Char) (s : List Char) :
    re_search false [.lit c] s = true ↔ c ∈ s := by
  induction s with
  | nil =>
    rw [re_search_nil, acceptPref_lit_nil]
    simp
  | cons d s' ih =>
    rw [re_search_cons, acceptPref_lit_cons, acceptPref_nil, Bool.or_eq_true,
      Bool.and_eq_true, ih]
    simp [ceq, List.mem_cons]

/-- `.*` before a body: the body may start after any gap. -/
theorem acceptPref_starAny (ci : Bool) (as : RExp) (s : List Char) :
    acceptPref ci (.star .anyOne :: as) s = true ↔
      ∃ n, acceptPref ci as (s.drop n) = true := by
  induction s with
  | nil =>
    rw [acceptPref_star_nil]
    constructor
    · intro h; exact ⟨0, h⟩
    · rintro ⟨n, h⟩; simpa using h
  | cons d s' ih =>
    rw [acceptPref_star_cons, Bool.or_eq_true, Bool.and_eq_true, ih]
    constructor
    · rintro (h | ⟨-, n, h⟩)
      · exact ⟨0, h⟩
      · exact ⟨n + 1, h⟩
    · rintro ⟨n, h⟩
      cases n with
      | zero => exact Or.inl h
      | succ n => exact Or.inr ⟨by simp [matchesChar], n, h⟩

/-- A leading case-sensitive literal atom peels exactly that codepoint
off the input. -/
theorem acceptPref_lit_iff (c : Char) (as : RExp) (u : List Char) :
    acceptPref false (.lit c :: as) u = true ↔
      ∃ t, u = c :: t ∧ acceptPref false as t = true := by
  cases u with
  | nil =>
    rw [acceptPref_lit_nil]
    simp
  | cons d t =>
    rw [acceptPref_lit_cons, Bool.and_eq_true]
    simp only [ceq, if_neg (by simp : ¬(false = true)), beq_iff_eq]
    constructor
    · rintro ⟨rfl, h⟩; exact ⟨t, rfl, h⟩
    · rintro ⟨t', ht, h⟩
      cases ht
      exact ⟨rfl, h⟩

/-- A cons is a sublist iff its head occurs at some position with the
tail a sublist of what follows. -/
theorem cons_sublist_iff_drop (c : Char) (cs s : List Char) :
    (c :: cs).Sublist s ↔ ∃ n t, s.drop n = c :: t ∧ cs.Sublist t := by
  induction s with
  | nil =>
    simp only [List.sublist_nil, List.drop_nil]
    constructor
    · intro h; cases h
    · rintro ⟨n, t, h, -⟩; cases h
  | cons d s' ih =>
    rw [List.cons_sublist_cons']
    constructor
    · rintro (h | ⟨rfl, h⟩)
      · obtain ⟨n, t, ht, hs⟩ := ih.mp h
        exact ⟨n + 1, t, ht, hs⟩
      · exact ⟨0, s', rfl, h⟩
    · rintro ⟨n, t, ht, hs⟩
      cases n with
      | zero =>
        simp only [List.drop_zero] at ht
        cases ht
        exact Or.inr ⟨rfl, hs⟩
      | succ n => exact Or.inl (ih.mpr ⟨n, t, ht, hs⟩)

/-- The tail of the fuzzy accept-filter matches a prefix of `s` iff its
codepoints are a subsequence of `s`. -/
theorem acceptPref_fuzzyRest (cs : List Char) :
    ∀ s : List Char, acceptPref false (fuzzyRest cs) s = true ↔ cs.Sublist s := by
  induction cs with
  | nil =>
    intro s
    rw [show fuzzyRest [] = [] from rfl, acceptPref_nil]
    simp
  | cons c cs' ih =>
    intro s
    rw [show fuzzyRest (c :: cs') = .star .anyOne :: .group [.lit c] :: fuzzyRest cs'
        from rfl]
    rw [acceptPref_starAny, cons_sublist_iff_drop]
    constructor
    · rintro ⟨n, h⟩
      rw [acceptPref_group, List.singleton_append, acceptPref_lit_iff] at h
      obtain ⟨t, ht, h⟩ := h
      exact ⟨n, t, ht, (ih t).mp h⟩
    · rintro ⟨n, t, ht, hs⟩
      refine ⟨n, ?_⟩
      rw [acceptPref_group, List.singleton_append, acceptPref_lit_iff]
      exact ⟨t, ht, (ih t).mpr hs⟩

/-! ## Pipeline compilation corollaries -/

/-- Literal-mode compilation always succeeds, to the literal atoms. -/
theorem create_regex_normal (p : List Char) (cs : Bool) :
    create_regex .MM_NORMAL p cs = some ⟨!cs, litAst p⟩ := by
  simp [create_regex, R, parseRE_escape]

/-- Glob-mode compilation always succeeds, to the `globAst` atoms. -/
theorem create_regex_glob (p : List Char) (cs : Bool) :
    create_regex .MM_GLOB p cs = some ⟨!cs, globAst p⟩ := by
  simp [create_regex, R, parseRE_glob]

/-- Fuzzy-mode compilation always succeeds, to the `fuzzyAst` atoms. -/
theorem create_regex_fuzzy (p : List Char) (cs : Bool) :
    create_regex .MM_FUZZY p cs = some ⟨!cs, fuzzyAst p⟩ := by
  simp [create_regex, R, parseRE_fuzzy]

/-- The matcher is the short-circuit AND over the tokens. -/
theorem helper_token_match_iff (tokens : List GRegexM) (cand : List Char) :
    helper_token_match (tokens.map some) cand = true ↔
      ∀ t ∈ tokens, g_regex_match t cand = true := by
  induction tokens with
  | nil => simp [helper_token_match]
  | cons t ts ih => simp [helper_token_match, ih]

/-- Claim C1: `matches(tokenSet, candidate)` is true iff every token's
compiled pattern finds at least one occurrence somewhere in the
candidate (AND semantics, no positional relationship), and the
empty/absent TokenSet produced for an empty query matches every
candidate. -/
theorem claim_C1 : ∀ (tokens : List GRegexM) (cand : List Char) (mm : MatchingMethod)
    (ten cs : Bool),
    (helper_token_match (tokens.map some) cand = true ↔
      ∀ t ∈ tokens, g_regex_match t cand = true)
    ∧ (∀ r : GRegexM, g_regex_match r cand = true ↔
        ∃ n, acceptPref r.ci r.re (cand.drop n) = true)
    ∧ tokenize mm ten cs [] = []
    ∧ helper_token_match (tokenize mm ten cs []) cand = true := by
  intro tokens cand mm ten cs
  refine ⟨helper_token_match_iff tokens cand, ?_, ?_, ?_⟩
  · intro r
    rw [g_regex_match]
    exact re_search_iff r.ci r.re cand
  · simp [tokenize]
  · simp [tokenize, helper_token_match]

/-- Witness for C1 at a concrete token set and candidate. -/
theorem claim_C1_witness :
    helper_token_match ([(⟨false, [.lit 'a']⟩ : GRegexM)].map some) ("bca".toList) = true :=
  (claim_C1 [⟨false, [.lit 'a']⟩] ("bca".toList) .MM_NORMAL true true).1.mpr (by
    intro t ht
    rw [List.mem_singleton] at ht
    subst ht
    simp [g_regex_match, re_search, acceptPref, ceq])

/-- Claim C2: compilation never fails outward; in Regex mode a token
text that fails to compile falls back to the Literal strategy on the
same text, and `compile("(", Regex)` succeeds, matching exactly the
candidates that contain the literal character `(`. -/
theorem claim_C2 : ∀ (s : List Char) (cs : Bool),
    (create_regex .MM_REGEX s cs).isSome = true
    ∧ (R s cs = none → create_regex .MM_REGEX s cs = create_regex .MM_NORMAL s cs)
    ∧ (∃ r, create_regex .MM_REGEX ("(".toList) true = some r ∧
        ∀ cand : List Char, (g_regex_match r cand = true ↔ '(' ∈ cand)) := by
  intro s cs
  refine ⟨?_, ?_, ?_⟩
  · cases hR : R s cs with
    | some r => simp [create_regex, hR]
    | none =>
      have h2 : R (g_regex_escape_string s) cs = some ⟨!cs, litAst s⟩ := by
        simp [R, parseRE_escape]
      simp [create_regex, hR, h2]
  · intro hR
    simp [create_regex, hR]
  · refine ⟨⟨false, [.lit '(']⟩, rfl, ?_⟩
    intro cand
    rw [g_regex_match]
    exact re_search_single_lit '(' cand

/-- Witness for C2: `"("` itself fails direct compilation and takes the
Literal fallback. -/
theorem claim_C2_witness :
    create_regex .MM_REGEX ("(".toList) true = create_regex .MM_NORMAL ("(".toList) true :=
  (claim_C2 ("(".toList) true).2.1 rfl

/-- Claim C3: the fuzzy accept-filter is exactly the in-order
subsequence test on codepoints. -/
theorem claim_C3 : ∀ P C : List Char,
    compileAndMatch .MM_FUZZY P C = true ↔ P.Sublist C := by
  intro P C
  rw [compileAndMatch, create_regex_fuzzy]
  show g_regex_match ⟨!true, fuzzyAst P⟩ C = true ↔ P.Sublist C
  simp only [g_regex_match, Bool.not_true]
  cases P with
  | nil =>
    rw [show fuzzyAst [] = [] from rfl]
    simp [re_search_nil_re, List.nil_sublist]
  | cons c cs =>
    rw [re_search_iff]
    rw [show fuzzyAst (c :: cs) = .group [.lit c] :: fuzzyRest cs from rfl]
    rw [cons_sublist_iff_drop]
    constructor
    · rintro ⟨n, h⟩
      rw [acceptPref_group, List.singleton_append, acceptPref_lit_iff] at h
      obtain ⟨t, ht, h⟩ := h
      exact ⟨n, t, ht, (acceptPref_fuzzyRest cs t).mp h⟩
    · rintro ⟨n, t, ht, hs⟩
      refine ⟨n, ?_⟩
      rw [acceptPref_group, List.singleton_append, acceptPref_lit_iff]
      exact ⟨t, ht, (acceptPref_fuzzyRest cs t).mpr hs⟩

/-- Witness for C3 at the spec's own examples. -/
theorem claim_C3_witness :
    compileAndMatch .MM_FUZZY ("abc".toList) ("xaxbxc".toList) = true
    ∧ compileAndMatch .MM_FUZZY ("abc".toList) ("acb".toList) = false := by
  constructor
  · exact (claim_C3 ("abc".toList) ("xaxbxc".toList)).mpr (by decide)
  · cases hb : compileAndMatch .MM_FUZZY ("abc".toList) ("acb".toList) with
    | false => rfl
    | true =>
      exact absurd ((claim_C3 ("abc".toList) ("acb".toList)).mp hb) (by decide)

/-- Counterexample to C8 as stated: the code's glob `*` also matches
the empty sequence, so `compile("f*o", Glob)` does match `"fo"`; and
the code's glob `?` is compiled to `\S`, which does not match a
whitespace codepoint, so `compile("f?o", Glob)` does not match
`"f o"`. -/
theorem claim_C8_counterexample :
    compileAndMatch .MM_GLOB ("f*o".toList) ("fo".toList) = true
    ∧ compileAndMatch .MM_GLOB ("f?o".toList) ("f o".toList) = false := by
  constructor <;>
    simp [compileAndMatch, create_regex, R, parseRE_glob, globAst, g_regex_match,
      re_search, acceptPref, matchesChar, ceq]

/-- Claim C8 (amended): glob compilation escapes the metacharacters and
rewrites the escaped text so that `*` matches any (possibly empty)
sequence and `?` matches any single non-whitespace codepoint; the
compiled abstract syntax is exactly `globAst`, and on the examples:
`f*o` matches "foo" and "fo" but not "bar"; `f?o` matches "foo" and
"fzo" but not "fo" or "f o". -/
theorem claim_C8 :
    (∀ p : List Char, parseRE (glob_to_regex p) = some (globAst p))
    ∧ (∀ (ci : Bool) (d : Char), matchesChar ci .nonSpace d = !d.isWhitespace)
    ∧ (∀ (ci : Bool) (as : RExp) (s : List Char),
        acceptPref ci (.star .anyOne :: as) s = true ↔
          ∃ n, acceptPref ci as (s.drop n) = true)
    ∧ compileAndMatch .MM_GLOB ("f*o".toList) ("foo".toList) = true
    ∧ compileAndMatch .MM_GLOB ("f*o".toList) ("fo".toList) = true
    ∧ compileAndMatch .MM_GLOB ("f*o".toList) ("bar".toList) = false
    ∧ compileAndMatch .MM_GLOB ("f?o".toList) ("foo".toList) = true
    ∧ compileAndMatch .MM_GLOB ("f?o".toList) ("fzo".toList) = true
    ∧ compileAndMatch .MM_GLOB ("f?o".toList) ("fo".toList) = false
    ∧ compileAndMatch .MM_GLOB ("f?o".toList) ("f o".toList) = false := by
  refine ⟨parseRE_glob, fun ci d => rfl, acceptPref_starAny, ?_, ?_, ?_, ?_, ?_, ?_, ?_⟩ <;>
    simp [compileAndMatch, create_regex, R, parseRE_glob, globAst, g_regex_match,
      re_search, acceptPref, matchesChar, ceq]

/-! ## Fuzzy scorer claims -/

/-- Claim C4: a candidate longer than 256 codepoints short-circuits to
exactly the worst-score sentinel, the negation of the minimum score
constant, for every pattern. -/
theorem claim_C4 : ∀ (cs : Bool) (pattern str : List Char),
    FUZZY_SCORER_MAX_LENGTH < str.length →
    rofi_scorer_fuzzy_evaluate cs pattern str = -MIN_SCORE := by
  intro cs pattern str h
  unfold rofi_scorer_fuzzy_evaluate
  rw [if_pos h]

/-- Witness for C4: a 257-codepoint candidate. -/
theorem claim_C4_witness :
    FUZZY_SCORER_MAX_LENGTH < (List.replicate 257 'a').length
    ∧ rofi_scorer_fuzzy_evaluate false ("abc".toList) (List.replicate 257 'a') = -MIN_SCORE :=
  ⟨by rw [List.length_replicate]; decide,
    claim_C4 false ("abc".toList) (List.replicate 257 'a')
      (by rw [List.length_replicate]; decide)⟩

/-- Counterexample to C5 as stated: the claim says the Lower→Upper
(camel) transition scores 45, but the code's CAMEL value
`WORD_START_SCORE + GAP_SCORE - 1 = 50 - 5 - 1` is 44. -/
theorem claim_C5_counterexample : rofi_scorer_get_score_for .LOWER .UPPER ≠ 45 := by
  decide

/-- Claim C5 (amended): the per-position base bonus follows the claimed
ordered transition table with CAMEL = WORD_START + GAP − 1 = 44 (not
45): NonWord→non-NonWord scores 50; else Lower→Upper or non-Digit→Digit
scores 44; else any transition into NonWord scores 40; else 0; and
position 0 is treated as preceded by a NonWord character. -/
theorem claim_C5 :
    (∀ prev curr, rofi_scorer_get_score_for prev curr = specTransitionScore prev curr)
    ∧ (∀ (c : Char) (rest : List Char),
        bonusScores .NON_WORD (c :: rest) =
          rofi_scorer_get_score_for .NON_WORD (rofi_scorer_get_character_class c) ::
            bonusScores (rofi_scorer_get_character_class c) rest)
    ∧ rofi_scorer_get_score_for .LOWER .UPPER = 44
    ∧ CAMEL_SCORE = WORD_START_SCORE + GAP_SCORE - 1 := by
  refine ⟨?_, fun c rest => rfl, by decide, rfl⟩
  intro prev curr
  cases prev <;> cases curr <;> decide

/-- Claim C6: with the "smaller returned score is better" convention,
the scorer strictly prefers an earlier first-character occurrence and a
contiguous match. -/
theorem claim_C6 : ∀ cs : Bool,
    rofi_scorer_fuzzy_evaluate cs ("abc".toList) ("abcxyz".toList) <
      rofi_scorer_fuzzy_evaluate cs ("abc".toList) ("xabcxyz".toList)
    ∧ rofi_scorer_fuzzy_evaluate cs ("abc".toList) ("abcxyz".toList) <
      rofi_scorer_fuzzy_evaluate cs ("abc".toList) ("axbxcxyz".toList) := by
  decide

/-- A pattern of whitespace only never runs a DP row. -/
theorem scorerLoop_whitespace (cs : Bool) (scs : List Int) (str : List Char) :
    ∀ ps : List Char, (∀ c ∈ ps, c.isWhitespace = true) →
    ∀ (dp : List Int) (u us : Int) (pf pst : Bool),
      scorerLoop cs scs str ps dp u us pf pst = dp := by
  intro ps
  induction ps with
  | nil => intro _ dp u us pf pst; rfl
  | cons pc ps' ih =>
    intro h dp u us pf pst
    have hpc : pc.isWhitespace = true := h pc (List.mem_cons_self pc ps')
    simp only [scorerLoop, hpc, if_pos]
    exact ih (fun c hc => h c (List.mem_cons_of_mem pc hc)) dp u us pf true

/-- Scanning an all-sentinel row through gaps stays at the sentinel. -/
theorem finalGapScan_min (n : Nat) :
    finalGapScan (List.replicate n MIN_SCORE) MIN_SCORE = MIN_SCORE := by
  induction n with
  | zero => rfl
  | succ n ih =>
    rw [List.replicate_succ]
    rw [show finalGapScan (MIN_SCORE :: List.replicate n MIN_SCORE) MIN_SCORE =
        finalGapScan (List.replicate n MIN_SCORE) (max (MIN_SCORE + GAP_SCORE) MIN_SCORE)
        from rfl]
    rw [show max (MIN_SCORE + GAP_SCORE) MIN_SCORE = MIN_SCORE from by decide, ih]

/-- Claim C10: with an empty pattern, or one consisting only of
whitespace codepoints (which the scorer skips), no DP cell is ever
raised, and the result is exactly the worst sentinel — the same value
as the over-256-codepoint guard — for every candidate. -/
theorem claim_C10 : ∀ (cs : Bool) (pattern str : List Char),
    (∀ c ∈ pattern, c.isWhitespace = true) →
    rofi_scorer_fuzzy_evaluate cs pattern str = -MIN_SCORE := by
  intro cs pattern str h
  unfold rofi_scorer_fuzzy_evaluate
  by_cases hl : str.length > FUZZY_SCORER_MAX_LENGTH
  · rw [if_pos hl]
  · rw [if_neg hl]
    show Neg.neg (finalGapScan
        (scorerLoop cs (bonusScores .NON_WORD str) str pattern
          (List.replicate str.length MIN_SCORE) 0 0 true true) MIN_SCORE) = -MIN_SCORE
    rw [scorerLoop_whitespace cs (bonusScores .NON_WORD str) str pattern h]
    rw [finalGapScan_min]

/-- Witness for C10: a one-space pattern and a short candidate. -/
theorem claim_C10_witness :
    (∀ c ∈ [' '], c.isWhitespace = true)
    ∧ rofi_scorer_fuzzy_evaluate false [' '] ("ab".toList) = -MIN_SCORE :=
  ⟨by decide, claim_C10 false [' '] ("ab".toList) (by decide)⟩

/-! ## Highlighter claim -/

/-- Claim C7: for every occurrence, the highlighter reports the
individual capture-group spans (groups 1..n, excluding the whole-match
group 0) whenever the match has more than one group, and the
whole-match span when it has zero or one; highlighting the fuzzy
pattern "ab" against "xaybz" with Bold yields exactly the two spans of
'a' and 'b'. -/
theorem claim_C7 : ∀ (st en : Nat) (caps : Caps),
    (caps ≠ [] → spansOfOccurrence (st, en, caps) = caps)
    ∧ spansOfOccurrence (st, en, ([] : Caps)) = [(st, en)]
    ∧ helper_token_match_get_pango_attr ⟨true, false, false, false⟩
        (tokenize .MM_FUZZY false true ("ab".toList)) ("xaybz".toList) =
      [⟨.weightBold, 1, 2⟩, ⟨.weightBold, 3, 4⟩] := by
  intro st en caps
  refine ⟨?_, by simp [spansOfOccurrence], by decide⟩
  intro hne
  cases caps with
  | nil => exact absurd rfl hne
  | cons pr ps => simp [spansOfOccurrence]

/-- Witness for C7 at a concrete occurrence with one capture group. -/
theorem claim_C7_witness :
    ([((1 : Nat), (2 : Nat))] : Caps) ≠ []
    ∧ spansOfOccurrence (0, 5, [((1 : Nat), (2 : Nat))]) = [(1, 2)] :=
  ⟨by decide, (claim_C7 0 5 [(1, 2)]).1 (by decide)⟩

/-! ## Edit distance: bridge from the DP to the recursive distance -/

/-- `ceq` is reflexive. -/
theorem ceq_refl (ci : Bool) (a : Char) : ceq ci a a = true := by
  cases ci <;> simp [ceq]

/-- Boolean character equality is symmetric. -/
theorem char_beq_comm (a b : Char) : (a == b) = (b == a) := by
  by_cases h : a = b
  · subst h; rfl
  · rw [beq_eq_false_iff_ne.mpr h, beq_eq_false_iff_ne.mpr (Ne.symm h)]

/-- `ceq` is symmetric. -/
theorem ceq_comm (ci : Bool) (a b : Char) : ceq ci a b = ceq ci b a := by
  cases ci <;> simp only [ceq, if_pos, if_neg] <;> exact char_beq_comm ..

/-- The recursive distance of a string to itself is zero, for any
reflexive character equivalence. -/
theorem editDistRec_self (eq : Char → Char → Bool) (heq : ∀ a, eq a a = true) :
    ∀ s : List Char, editDistRec eq s s = 0 := by
  intro s
  induction s with
  | nil => simp [editDistRec]
  | cons x xs ih =>
    simp only [editDistRec]
    rw [heq x]
    simp [ih]

/-- The recursive distance is symmetric, for any symmetric character
equivalence. -/
theorem editDistRec_comm (eq : Char → Char → Bool) (hc : ∀ a b, eq a b = eq b a) :
    ∀ s t : List Char, editDistRec eq s t = editDistRec eq t s := by
  intro s t
  induction s, t using editDistRec.induct eq with
  | case1 ys =>
    cases ys <;> simp [editDistRec]
  | case2 x xs =>
    simp [editDistRec]
  | case3 x xs y ys ih1 ih2 ih3 =>
    simp only [editDistRec]
    rw [ih1, ih2, ih3, hc x y]
    omega

/-- One DP column update equals the reference column for the haystack
prefix extended by `hc`. -/
theorem levStepGo_distRows (eq : Char → Char → Bool) (hc : Char) (P : List Char) :
    ∀ ns r : List Char,
      levStepGo eq hc ns (distRows eq P r ns)
          (editDistRec eq r (hc :: P)) (editDistRec eq r P) =
        distRows eq (hc :: P) r ns := by
  intro ns
  induction ns with
  | nil => intro r; rfl
  | cons m ms ih =>
    intro r
    simp only [distRows, levStepGo]
    have hv : (min (min (editDistRec eq (m :: r) P + 1) (editDistRec eq r (hc :: P) + 1))
        (editDistRec eq r P + if eq m hc then 0 else 1)) =
          editDistRec eq (m :: r) (hc :: P) := by
      simp [editDistRec]
    rw [hv, ih (m :: r)]

/-- The reference column for the empty haystack prefix is the initial
column `[r+1, r+2, ...]`. -/
theorem distRows_nil_haystack (eq : Char → Char → Bool) :
    ∀ ns r : List Char, distRows eq [] r ns = List.range' (r.length + 1) ns.length := by
  intro ns
  induction ns with
  | nil => intro r; rfl
  | cons m ms ih =>
    intro r
    simp only [distRows]
    rw [show editDistRec eq (m :: r) [] = r.length + 1 from by simp [editDistRec]]
    rw [ih (m :: r)]
    rw [show (m :: r).length = r.length + 1 from rfl]
    rw [show (m :: ms).length = ms.length + 1 from rfl]
    rw [List.range'_succ]

/-- The last entry of the reference column is the distance of the whole
(reversed) needle. -/
theorem distRows_getLast (eq : Char → Char → Bool) (P : List Char) :
    ∀ ns r : List Char,
      (distRows eq P r ns).getLastD (editDistRec eq r P) =
        editDistRec eq (ns.reverse ++ r) P := by
  intro ns
  induction ns with
  | nil => intro r; rfl
  | cons m ms ih =>
    intro r
    simp only [distRows]
    rw [List.getLastD_cons]
    rw [ih (m :: r)]
    simp [List.append_assoc]

/-- Running the outer loop from the reference column of `P` computes
the distance of the reversed needle to the whole reversed haystack. -/
theorem levRun_distRows (eq : Char → Char → Bool) (needle : List Char) :
    ∀ hs P : List Char,
      levRun eq needle hs (editDistRec eq [] P :: distRows eq P [] needle) P.length =
        editDistRec eq needle.reverse (hs.reverse ++ P) := by
  intro hs
  induction hs with
  | nil =>
    intro P
    simp only [levRun]
    rw [List.getLastD_cons, distRows_getLast]
    simp
  | cons hc hs' ih =>
    intro P
    simp only [levRun]
    rw [show P.length + 1 = editDistRec eq [] (hc :: P) from by simp [editDistRec]]
    rw [levStepGo_distRows eq hc P needle []]
    nth_rewrite 2 [show editDistRec eq [] (hc :: P) = (hc :: P).length from by
      simp [editDistRec]]
    rw [ih (hc :: P)]
    simp [List.append_assoc]

/-- The DP of the source equals the recursive Levenshtein distance on
the reversed inputs, away from the `G_MAXLONG` sentinel. -/
theorem levenshtein_eq_editDistRec (cs : Bool) (needle haystack : List Char)
    (h : needle.length ≠ G_MAXLONG) :
    levenshtein cs needle haystack =
      editDistRec (ceq !cs) needle.reverse haystack.reverse := by
  rw [levenshtein, if_neg h]
  have hcol : List.range (needle.length + 1) =
      editDistRec (ceq !cs) [] [] :: distRows (ceq !cs) [] [] needle := by
    rw [distRows_nil_haystack]
    rw [show editDistRec (ceq !cs) [] [] = 0 from by simp [editDistRec]]
    rw [List.range_eq_range', List.range'_succ]
    simp
  rw [hcol]
  have hrun := levRun_distRows (ceq !cs) needle haystack []
  rw [List.append_nil] at hrun
  simpa using hrun

/-- Claim C9: `editDistance` is the Levenshtein distance over
codepoints — `editDistance("kitten", "sitting") = 3`, zero on equal
strings, and symmetric (under either case-sensitivity configuration;
the `G_MAXLONG` overflow sentinel of the source is excluded by the
length hypotheses, which every real string satisfies). -/
theorem claim_C9 : ∀ cs : Bool,
    levenshtein cs ("kitten".toList) ("sitting".toList) = 3
    ∧ (∀ s : List Char, s.length ≠ G_MAXLONG → levenshtein cs s s = 0)
    ∧ (∀ a b : List Char, a.length ≠ G_MAXLONG → b.length ≠ G_MAXLONG →
        levenshtein cs a b = levenshtein cs b a) := by
  intro cs
  refine ⟨?_, ?_, ?_⟩
  · cases cs <;> decide
  · intro s h
    rw [levenshtein_eq_editDistRec cs s s h]
    exact editDistRec_self (ceq !cs) (ceq_refl !cs) s.reverse
  · intro a b ha hb
    rw [levenshtein_eq_editDistRec cs a b ha, levenshtein_eq_editDistRec cs b a hb]
    exact editDistRec_comm (ceq !cs) (ceq_comm !cs) a.reverse b.reverse

/-- Witness for C9 at concrete strings. -/
theorem claim_C9_witness :
    ("abc".toList.length ≠ G_MAXLONG)
    ∧ levenshtein false ("abc".toList) ("abc".toList) = 0
    ∧ levenshtein true ("ab".toList) ("xba".toList) =
        levenshtein true ("xba".toList) ("ab".toList) :=
  ⟨by decide, (claim_C9 false).2.1 _ (by decide),
    (claim_C9 true).2.2 _ _ (by decide) (by decide)⟩

end Rofi
